import Mathlib

/-!
Verification of the split/exercise/schedule logic of a workout-tracking
app.  The definitions below are shallow embeddings of the TypeScript
functions in `src/screens/WorkoutScreen.tsx`, `SplitDetailScreen` and
`ProgressScreen`: lists model JS arrays, `Option` models `null`/
`undefined`, and association lists (in insertion order) model plain JS
objects used as string-keyed records.
-/

set_option maxHeartbeats 1000000

namespace PRApp

/-- A denormalized exercise reference stored inside a split:
`{ id, name, bodyPart }`. -/
structure ExerciseRef where
  id : String
  name : String
  bodyPart : String
deriving DecidableEq, Repr

/-- A derived roster exercise: `{ id, name, bodyPart, splitIds }`. -/
structure Exercise where
  id : String
  name : String
  bodyPart : String
  splitIds : List String
deriving DecidableEq, Repr

/-- A workout split: `{ id, name, days, color?, exercises }`. -/
structure Split where
  id : String
  name : String
  days : List String
  color : Option String
  exercises : List ExerciseRef
deriving DecidableEq, Repr

/-- The edit-mode gate of the workout screen: `'none' | 'program' | 'splits'`. -/
inductive EditMode where
  | noMode
  | program
  | splitsMode
deriving DecidableEq, Repr

/-! ## Derivation (`processSplitsData`, WorkoutScreen.tsx lines 637-672) -/

/-- `existingExercise.splitIds.push(split.id)` guarded by
`!existingExercise.splitIds.includes(split.id)`. -/
def addSplitId (splitId : String) (x : Exercise) : Exercise :=
  if splitId ∈ x.splitIds then x else { x with splitIds := x.splitIds ++ [splitId] }

/-- One step of the accumulator in `processSplitsData`'s first `reduce`:
`acc.find(e => e.id === exercise.id)` mutates the first entry with a
matching id; if none exists, `acc.push({...exercise, splitIds: [split.id]})`. -/
def insertExercise (splitId : String) : List Exercise → ExerciseRef → List Exercise
  | [], e => [{ id := e.id, name := e.name, bodyPart := e.bodyPart, splitIds := [splitId] }]
  | x :: xs, e =>
      if x.id = e.id then addSplitId splitId x :: xs
      else x :: insertExercise splitId xs e

/-- The body of the outer `reduce`: fold one split's exercise list into the
accumulator. -/
def processSplit (acc : List Exercise) (s : Split) : List Exercise :=
  s.exercises.foldl (insertExercise s.id) acc

/-- The deduplicated exercise roster (`exercises` in `processSplitsData`). -/
def dedupRoster (splitsData : List Split) : List Exercise :=
  splitsData.foldl processSplit []

/-- One step of the second `reduce` in `processSplitsData`: append `e` to
the bucket keyed by `e.bodyPart`, creating the bucket at the end (JS
object-key insertion order) when absent. -/
def pushToBucket (e : Exercise) : List (String × List Exercise) → List (String × List Exercise)
  | [] => [(e.bodyPart, [e])]
  | (k, v) :: rest =>
      if k = e.bodyPart then (k, v ++ [e]) :: rest
      else (k, v) :: pushToBucket e rest

/-- `exercisesByBodyPart`: group the roster by body part, as an association
list in key-insertion order (the order `Object.entries` later reports). -/
def groupByBodyPart (roster : List Exercise) : List (String × List Exercise) :=
  roster.foldl (fun acc e => pushToBucket e acc) []

/-- `processSplitsData`: returns the deduplicated roster together with its
grouping by body part (the `bodyPartSections` are exactly the entries of
the grouping, so we keep the pair). -/
def processSplitsData (splitsData : List Split) :
    List Exercise × List (String × List Exercise) :=
  let exercises := dedupRoster splitsData
  (exercises, groupByBodyPart exercises)

/-! ## Spec-side characterizations used to state the claims -/

/-- First-occurrence deduplication of a list of strings (keeps the first
copy of each element, in order). -/
def firstDedup : List String → List String
  | [] => []
  | x :: xs => x :: firstDedup (xs.filter (fun y => y != x))
termination_by l => l.length
decreasing_by
  simp only [List.length_cons]
  exact Nat.lt_succ_of_le (List.length_filter_le _ _)

/-- Append `a` at the end unless already present. -/
def pushId (a : String) (l : List String) : List String :=
  if a ∈ l then l else l ++ [a]

/-- Does split `s` own exercise id `eid` (its exercise list mentions it)? -/
def owns (eid : String) (s : Split) : Bool :=
  s.exercises.any (fun e => e.id == eid)

/-- The ids of the splits whose exercise list contains `eid`, in
split-iteration order, first occurrence kept. -/
def ownerIds (splitsData : List Split) (eid : String) : List String :=
  firstDedup ((splitsData.filter (owns eid)).map Split.id)

/-- The grouping the spec describes: body-part keys in first-seen order,
each bucket the roster's exercises with that body part in roster order. -/
def specGroup (l : List Exercise) : List (String × List Exercise) :=
  (firstDedup (l.map Exercise.bodyPart)).map
    (fun k => (k, l.filter (fun e => e.bodyPart == k)))

/-- Concatenate the groups' exercise lists in group order. -/
def flattenGroups (gs : List (String × List Exercise)) : List Exercise :=
  gs.flatMap Prod.snd

/-- The ids of the roster entries. -/
def rosterIds (acc : List Exercise) : List String :=
  acc.map Exercise.id

/-! ## Split editor operations (WorkoutScreen.tsx) -/

/-- First phase of `handleSplitSelect`: remove the selected day from every
split's day list (`s.days.filter(d => d !== selectedDay)`). -/
def removeDayFromAll (day : String) (sd : List Split) : List Split :=
  sd.map (fun s => { s with days := s.days.filter (fun d => d != day) })

/-- Second phase of `handleSplitSelect`: append the selected day to the
chosen split's day list. -/
def addDayToTarget (day : String) (targetId : String) (sd : List Split) : List Split :=
  sd.map (fun s => if s.id = targetId then { s with days := s.days ++ [day] } else s)

/-- The schedule update performed by `handleSplitSelect` (lines 686-710):
first remove the day everywhere, then add it to the target split. -/
def assignWeekday (day : String) (target : Split) (sd : List Split) : List Split :=
  addDayToTarget day target.id (removeDayFromAll day sd)

/-- `handleSplitSelect` including its guard
`if (!selectedDay || editMode !== 'program') return`. -/
def handleSplitSelect (em : EditMode) (selectedDay : Option String) (target : Split)
    (sd : List Split) : List Split :=
  match selectedDay, em with
  | some day, EditMode.program => assignWeekday day target sd
  | _, _ => sd

/-- The blank split appended by `handleAddSplit`; its id is the string form
of the clock reading `Date.now()`, taken here as a parameter. -/
def blankSplit (newId : String) : Split :=
  { id := newId, name := "", days := [], color := none, exercises := [] }

/-- `handleAddSplit` (lines 871-890): guarded by splits edit mode, a no-op
at 7 splits, otherwise appends a blank split whose id is the current
clock string. -/
def handleAddSplit (em : EditMode) (newId : String) (sd : List Split) : List Split :=
  if em ≠ EditMode.splitsMode then sd
  else if sd.length ≥ 7 then sd
  else sd ++ [blankSplit newId]

/-- `handleDeleteSplit` (lines 892-902). -/
def handleDeleteSplit (em : EditMode) (splitId : String) (sd : List Split) : List Split :=
  if em ≠ EditMode.splitsMode then sd
  else sd.filter (fun s => s.id != splitId)

/-- `handleSplitNameEdit` (lines 839-853). -/
def handleSplitNameEdit (em : EditMode) (splitId newName : String) (sd : List Split) :
    List Split :=
  if em ≠ EditMode.splitsMode then sd
  else sd.map (fun s => if s.id = splitId then { s with name := newName } else s)

/-- `handleColorSelect` (lines 855-869). -/
def handleColorSelect (em : EditMode) (splitId color : String) (sd : List Split) :
    List Split :=
  if em ≠ EditMode.splitsMode then sd
  else sd.map (fun s => if s.id = splitId then { s with color := some color } else s)

/-! ## Add / remove exercises (SplitDetailScreen) -/

/-- `convertToWorkoutExercise`: tag a catalog reference with the owning
split id and an empty set list (sets are irrelevant here). -/
def convertToWorkoutExercise (splitId : String) (e : ExerciseRef) : Exercise :=
  { id := e.id, name := e.name, bodyPart := e.bodyPart, splitIds := [splitId] }

/-- `handleAddExercise`: the new exercise-list state
`[...prevExercises, ...newSelectedWorkoutExercises]` — an unconditional
append, with no duplicate filtering. -/
def handleAddExercise (split : Split) (exercises : List Exercise)
    (newExercises : List ExerciseRef) : List Exercise :=
  exercises ++ newExercises.map (convertToWorkoutExercise split.id)

/-- `handleRemoveExercise`: drop the exercise at the given position. -/
def handleRemoveExercise (exercises : List Exercise) (index : Nat) : List Exercise :=
  (exercises.enum.filter (fun p => p.1 != index)).map Prod.snd

/-! ## Debounced save (`debouncedSave`, WorkoutScreen.tsx lines 723-736)

The timer state is `Option (fireTime × data)`: `clearTimeout` drops a
pending timer, `setTimeout(..., window)` schedules a write of `data` at
`now + window`.  A run processes timestamped mutations in time order; a
pending timer whose fire time has passed fires (records its save) before
the next mutation is handled, and any still-pending timer fires at the
end of the run. -/

/-- Handle one mutation `(t, d)`: fire the pending save if its time has
come, then (re)start the timer for `t + window` with payload `d`. -/
def stepMut (window : Nat)
    (st : Option (Nat × List Split) × List (Nat × List Split))
    (m : Nat × List Split) :
    Option (Nat × List Split) × List (Nat × List Split) :=
  match st.1 with
  | some (ft, d) =>
      if ft ≤ m.1 then (some (m.1 + window, m.2), st.2 ++ [(ft, d)])
      else (some (m.1 + window, m.2), st.2)
  | none => (some (m.1 + window, m.2), st.2)

/-- Run the debounced save over a list of timestamped mutations; returns
the list of physical saves `(time, data written)` in order. -/
def runDebounce (window : Nat) (muts : List (Nat × List Split)) :
    List (Nat × List Split) :=
  let st := muts.foldl (stepMut window) (none, [])
  match st.1 with
  | some (ft, d) => st.2 ++ [(ft, d)]
  | none => st.2

/-! ## Session-log lookup (ProgressScreen) -/

/-- The weekday-name table `['Sun','Mon','Tue','Wed','Thu','Fri','Sat']`. -/
def days7 : List String :=
  ["Sun", "Mon", "Tue", "Wed", "Thu", "Fri", "Sat"]

/-- Days from 1970-01-01 to the civil date `y-m-d` (proleptic Gregorian),
the value underlying `Date.UTC`. -/
def daysFromCivil (y : Int) (m d : Nat) : Int :=
  let y' : Int := if m ≤ 2 then y - 1 else y
  let era : Int := (if 0 ≤ y' then y' else y' - 399) / 400
  let yoe : Int := y' - era * 400
  let mp : Nat := (m + 9) % 12
  let doy : Int := (153 * (mp : Int) + 2) / 5 + (d : Int) - 1
  let doe : Int := yoe * 365 + yoe / 4 - yoe / 100 + doy
  era * 146097 + doe - 719468

/-- `date.getDay()` for a UTC-parsed date: 0 = Sunday. -/
def jsGetDay (y : Int) (m d : Nat) : Nat :=
  (((daysFromCivil y m d + 4) % 7 + 7) % 7).toNat

/-- Days in a month of the Gregorian calendar. -/
def daysInMonth (y : Int) (m : Nat) : Nat :=
  if m = 2 then (if y % 4 = 0 ∧ (y % 100 ≠ 0 ∨ y % 400 = 0) then 29 else 28)
  else if m = 4 ∨ m = 6 ∨ m = 9 ∨ m = 11 then 30
  else 31

/-- Split a character list on `'-'` separators. -/
def splitOnDash : List Char → List (List Char)
  | [] => [[]]
  | c :: rest =>
      if c = '-' then [] :: splitOnDash rest
      else
        match splitOnDash rest with
        | [] => [[c]]
        | g :: gs => (c :: g) :: gs

/-- Decimal value of a digit string. -/
def digitsVal : List Char → Nat → Nat
  | [], acc => acc
  | c :: cs, acc => digitsVal cs (acc * 10 + (c.toNat - '0'.toNat))

/-- Parse a `YYYY-MM-DD` string; malformed or out-of-range input yields
`none` (an `Invalid Date` in JS). -/
def parseISODate (s : String) : Option (Int × Nat × Nat) :=
  match splitOnDash s.toList with
  | [ys, ms, ds] =>
      if ys.length = 4 ∧ ms.length = 2 ∧ ds.length = 2 ∧
         (ys.all Char.isDigit) ∧ (ms.all Char.isDigit) ∧ (ds.all Char.isDigit) then
        let y := digitsVal ys 0
        let m := digitsVal ms 0
        let d := digitsVal ds 0
        if 1 ≤ m ∧ m ≤ 12 ∧ 1 ≤ d ∧ d ≤ daysInMonth (y : Int) m then
          some ((y : Int), m, d)
        else none
      else none
  | _ => none

/-- `getDayOfWeek` (ProgressScreen lines 169-175): `null` in, `null` out;
otherwise index the weekday table with `date.getDay()`. -/
def getDayOfWeek : Option String → Option String
  | none => none
  | some ds =>
      match parseISODate ds with
      | none => none
      | some (y, m, d) => days7.get? (jsGetDay y m d)

/-- `getScheduledSplit` (ProgressScreen lines 178-182):
`splits.find(split => split.days.includes(dayOfWeek))`. -/
def getScheduledSplit (splits : List Split) : Option String → Option Split
  | none => none
  | some w => splits.find? (fun s => s.days.contains w)

/-- `isFutureDate` (ProgressScreen lines 78-81): lexicographic string
comparison `selectedDate > todayString`; no selection means not future. -/
def isFutureDate (selectedDate : Option String) (todayString : String) : Bool :=
  match selectedDate with
  | none => false
  | some d => decide (todayString < d)

/-! ## Lemmas about `pushId` and `firstDedup` -/

theorem mem_pushId_self (a : String) (l : List String) : a ∈ pushId a l := by
  unfold pushId
  by_cases h : a ∈ l
  · simp only [if_pos h]; exact h
  · simp [h]

theorem mem_pushId (x a : String) (l : List String) :
    x ∈ pushId a l ↔ x ∈ l ∨ x = a := by
  unfold pushId
  by_cases h : a ∈ l
  · simp only [if_pos h]
    constructor
    · exact Or.inl
    · rintro (hx | rfl) <;> [exact hx; exact h]
  · simp [if_neg h]

theorem pushId_idem (a : String) (l : List String) :
    pushId a (pushId a l) = pushId a l := by
  unfold pushId
  by_cases h : a ∈ l
  · simp [h]
  · simp [h]

theorem nodup_pushId (a : String) (l : List String) (h : l.Nodup) :
    (pushId a l).Nodup := by
  unfold pushId
  by_cases ha : a ∈ l
  · simpa [ha]
  · simp only [if_neg ha]
    exact List.Nodup.append h (List.nodup_singleton a) (by simpa using ha)

theorem firstDedup_nil : firstDedup [] = [] := by
  simp [firstDedup]

theorem firstDedup_cons (x : String) (xs : List String) :
    firstDedup (x :: xs) = x :: firstDedup (xs.filter (fun y => y != x)) := by
  simp [firstDedup]

theorem mem_firstDedup (x : String) (l : List String) :
    x ∈ firstDedup l ↔ x ∈ l := by
  induction l using firstDedup.induct with
  | case1 => simp [firstDedup_nil]
  | case2 a as ih =>
      rw [firstDedup_cons]
      by_cases hx : x = a
      · subst hx; simp
      · simp only [List.mem_cons, ih, List.mem_filter, bne_iff_ne]
        constructor
        · rintro (rfl | ⟨hm, _⟩)
          · exact Or.inl rfl
          · exact Or.inr hm
        · rintro (rfl | hm)
          · exact Or.inl rfl
          · exact Or.inr ⟨hm, hx⟩

theorem nodup_firstDedup (l : List String) : (firstDedup l).Nodup := by
  induction l using firstDedup.induct with
  | case1 => simp [firstDedup_nil]
  | case2 a as ih =>
      rw [firstDedup_cons]
      refine List.Nodup.cons ?_ ih
      intro hmem
      rw [mem_firstDedup] at hmem
      simp [List.mem_filter] at hmem

theorem firstDedup_append_singleton (l : List String) (a : String) :
    firstDedup (l ++ [a]) = pushId a (firstDedup l) := by
  induction l using firstDedup.induct with
  | case1 => simp [firstDedup_nil, firstDedup_cons, pushId]
  | case2 x xs ih =>
      rw [List.cons_append, firstDedup_cons, List.filter_append, firstDedup_cons]
      by_cases hax : a = x
      · subst hax
        have hfa : List.filter (fun y => y != a) [a] = [] := by simp
        rw [hfa, List.append_nil, pushId, if_pos (List.mem_cons_self _ _)]
      · have hfa : List.filter (fun y => y != x) [a] = [a] := by
          simp [List.filter_cons, hax]
        rw [hfa, ih]
        rw [pushId, pushId]
        by_cases hmem : a ∈ firstDedup (xs.filter (fun y => y != x))
        · rw [if_pos hmem, if_pos (List.mem_cons_of_mem _ hmem)]
        · rw [if_neg hmem, if_neg ?_, List.cons_append]
          intro hc
          rcases List.mem_cons.mp hc with h1 | h2
          · exact hax h1
          · exact hmem h2

/-! ## Lemmas about the roster accumulator -/

/-- The entry `{...exercise, splitIds: [split.id]}` pushed for a
first-seen exercise id. -/
def newEntry (sid : String) (e : ExerciseRef) : Exercise :=
  { id := e.id, name := e.name, bodyPart := e.bodyPart, splitIds := [sid] }

theorem addSplitId_id (sid : String) (x : Exercise) :
    (addSplitId sid x).id = x.id := by
  unfold addSplitId
  by_cases h : sid ∈ x.splitIds <;> simp [h]

theorem addSplitId_splitIds (sid : String) (x : Exercise) :
    (addSplitId sid x).splitIds = pushId sid x.splitIds := by
  unfold addSplitId pushId
  by_cases h : sid ∈ x.splitIds <;> simp [h]

theorem rosterIds_cons (x : Exercise) (xs : List Exercise) :
    rosterIds (x :: xs) = x.id :: rosterIds xs := rfl

theorem rosterIds_insert (sid : String) (acc : List Exercise) (e : ExerciseRef) :
    rosterIds (insertExercise sid acc e) = pushId e.id (rosterIds acc) := by
  induction acc with
  | nil => simp [insertExercise, rosterIds, newEntry, pushId]
  | cons x xs ih =>
      rw [insertExercise]
      by_cases h : x.id = e.id
      · rw [if_pos h, rosterIds_cons, addSplitId_id, h, pushId,
          if_pos (by rw [rosterIds_cons, h]; exact List.mem_cons_self _ _)]
        rw [rosterIds_cons, h]
      · rw [if_neg h, rosterIds_cons, ih, rosterIds_cons, pushId, pushId]
        by_cases hmem : e.id ∈ rosterIds xs
        · rw [if_pos hmem, if_pos (List.mem_cons_of_mem _ hmem)]
        · rw [if_neg hmem, if_neg ?_, List.cons_append]
          intro hc
          rcases List.mem_cons.mp hc with h1 | h2
          · exact h h1.symm
          · exact hmem h2

theorem insert_nodup (sid : String) (acc : List Exercise) (e : ExerciseRef)
    (h : (rosterIds acc).Nodup) : (rosterIds (insertExercise sid acc e)).Nodup := by
  rw [rosterIds_insert]
  exact nodup_pushId _ _ h

/-- Element-level characterization of one insertion, assuming the
accumulator's ids are duplicate-free. -/
theorem insert_char (sid : String) (e : ExerciseRef) (acc : List Exercise)
    (hnd : (rosterIds acc).Nodup) :
    ∀ x ∈ insertExercise sid acc e,
      (x.id = e.id ∧ ((∃ y ∈ acc, y.id = e.id ∧ x = addSplitId sid y) ∨
        (e.id ∉ rosterIds acc ∧ x = newEntry sid e))) ∨
      (x.id ≠ e.id ∧ x ∈ acc) := by
  induction acc with
  | nil =>
      intro x hx
      simp only [insertExercise, List.mem_singleton] at hx
      subst hx
      exact Or.inl ⟨rfl, Or.inr ⟨by simp [rosterIds], rfl⟩⟩
  | cons a as ih =>
      intro x hx
      rw [rosterIds_cons] at hnd
      have hnda : a.id ∉ rosterIds as := (List.nodup_cons.mp hnd).1
      have hndas : (rosterIds as).Nodup := (List.nodup_cons.mp hnd).2
      rw [insertExercise] at hx
      by_cases h : a.id = e.id
      · rw [if_pos h] at hx
        rcases List.mem_cons.mp hx with rfl | hxs
        · exact Or.inl ⟨by rw [addSplitId_id, h],
            Or.inl ⟨a, List.mem_cons_self _ _, h, rfl⟩⟩
        · refine Or.inr ⟨?_, List.mem_cons_of_mem _ hxs⟩
          intro hxe
          exact hnda (by rw [h, ← hxe]; exact List.mem_map_of_mem Exercise.id hxs)
      · rw [if_neg h] at hx
        rcases List.mem_cons.mp hx with rfl | hxs
        · exact Or.inr ⟨h, List.mem_cons_self _ _⟩
        · rcases ih hndas x hxs with ⟨hid, hcase⟩ | ⟨hid, hmem⟩
          · refine Or.inl ⟨hid, ?_⟩
            rcases hcase with ⟨y, hy, hye, hxy⟩ | ⟨hnm, hxn⟩
            · exact Or.inl ⟨y, List.mem_cons_of_mem _ hy, hye, hxy⟩
            · refine Or.inr ⟨?_, hxn⟩
              rw [rosterIds_cons]
              intro hc
              rcases List.mem_cons.mp hc with h1 | h2
              · exact h h1.symm
              · exact hnm h2
          · exact Or.inr ⟨hid, List.mem_cons_of_mem _ hmem⟩

theorem mem_rosterIds_foldl_insert (sid : String) (es : List ExerciseRef) :
    ∀ (acc : List Exercise) (x : String),
      x ∈ rosterIds (es.foldl (insertExercise sid) acc) ↔
        x ∈ rosterIds acc ∨ ∃ e ∈ es, e.id = x := by
  induction es with
  | nil => intro acc x; simp
  | cons e es ih =>
      intro acc x
      rw [List.foldl_cons, ih]
      rw [rosterIds_insert, mem_pushId]
      constructor
      · rintro ((hm | rfl) | ⟨e', he', hid⟩)
        · exact Or.inl hm
        · exact Or.inr ⟨e, List.mem_cons_self _ _, rfl⟩
        · exact Or.inr ⟨e', List.mem_cons_of_mem _ he', hid⟩
      · rintro (hm | ⟨e', he', hid⟩)
        · exact Or.inl (Or.inl hm)
        · rcases List.mem_cons.mp he' with rfl | hes
          · exact Or.inl (Or.inr hid.symm)
          · exact Or.inr ⟨e', hes, hid⟩

theorem foldl_insert_nodup (sid : String) (es : List ExerciseRef) :
    ∀ (acc : List Exercise), (rosterIds acc).Nodup →
      (rosterIds (es.foldl (insertExercise sid) acc)).Nodup := by
  induction es with
  | nil => intro acc h; exact h
  | cons e es ih =>
      intro acc h
      rw [List.foldl_cons]
      exact ih _ (insert_nodup _ _ _ h)

/-- Folding one split's exercise list over the accumulator: every entry's
`splitIds` gains `sid` exactly when the split's list mentions its id. -/
theorem foldl_insert_splitIds (sid : String) (es : List ExerciseRef) :
    ∀ (acc : List Exercise) (g : String → List String),
      (rosterIds acc).Nodup →
      (∀ x ∈ acc, x.splitIds = g x.id) →
      (∀ eid, eid ∉ rosterIds acc → g eid = []) →
      ∀ x ∈ es.foldl (insertExercise sid) acc,
        x.splitIds = if (∃ e ∈ es, e.id = x.id) then pushId sid (g x.id) else g x.id := by
  induction es with
  | nil =>
      intro acc g _ hg _ x hx
      rw [List.foldl_nil] at hx
      rw [if_neg (by simp), hg x hx]
  | cons e es ih =>
      intro acc g hnd hg hg0 x hx
      rw [List.foldl_cons] at hx
      have hnd' := insert_nodup sid acc e hnd
      have hg' : ∀ y ∈ insertExercise sid acc e,
          y.splitIds = if y.id = e.id then pushId sid (g y.id) else g y.id := by
        intro y hy
        rcases insert_char sid e acc hnd y hy with ⟨hid, hcase⟩ | ⟨hid, hmem⟩
        · rcases hcase with ⟨z, hz, hze, rfl⟩ | ⟨hnm, rfl⟩
          · rw [addSplitId_splitIds, hg z hz, addSplitId_id, hze, if_pos rfl]
          · simp only [newEntry, if_pos rfl]
            rw [hg0 _ hnm]
            simp [pushId]
        · rw [if_neg hid]
          exact hg y hmem
      have hg0' : ∀ eid, eid ∉ rosterIds (insertExercise sid acc e) →
          (if eid = e.id then pushId sid (g eid) else g eid) = [] := by
        intro eid hne
        rw [rosterIds_insert] at hne
        have h1 : eid ∉ rosterIds acc := fun hc => hne ((mem_pushId _ _ _).mpr (Or.inl hc))
        have h2 : eid ≠ e.id := by
          intro hc
          exact hne (hc ▸ mem_pushId_self e.id (rosterIds acc))
        rw [if_neg h2]
        exact hg0 eid h1
      have key := ih (insertExercise sid acc e)
        (fun eid => if eid = e.id then pushId sid (g eid) else g eid) hnd' hg' hg0' x hx
      simp only at key
      by_cases hxe : x.id = e.id
      · have hcond : ∃ e' ∈ e :: es, e'.id = x.id := ⟨e, List.mem_cons_self _ _, hxe.symm⟩
        rw [if_pos hcond]
        by_cases hces : ∃ e' ∈ es, e'.id = x.id
        · rw [key, if_pos hces, if_pos hxe, pushId_idem]
        · rw [key, if_neg hces, if_pos hxe]
      · have hcond : (∃ e' ∈ e :: es, e'.id = x.id) ↔ (∃ e' ∈ es, e'.id = x.id) := by
          constructor
          · rintro ⟨e', he', hid⟩
            rcases List.mem_cons.mp he' with rfl | h
            · exact absurd hid.symm hxe
            · exact ⟨e', h, hid⟩
          · rintro ⟨e', he', hid⟩
            exact ⟨e', List.mem_cons_of_mem _ he', hid⟩
        by_cases hces : ∃ e' ∈ es, e'.id = x.id
        · rw [if_pos (hcond.mpr hces), key, if_pos hces, if_neg hxe]
        · rw [if_neg (fun hc => hces (hcond.mp hc)), key, if_neg hces, if_neg hxe]

theorem owns_iff (eid : String) (s : Split) :
    owns eid s = true ↔ ∃ e ∈ s.exercises, e.id = eid := by
  simp [owns]

theorem ownerIds_nil (eid : String) : ownerIds [] eid = [] := by
  simp [ownerIds, firstDedup_nil]

theorem ownerIds_append_singleton (p : List Split) (s : Split) (eid : String) :
    ownerIds (p ++ [s]) eid =
      if (∃ e ∈ s.exercises, e.id = eid) then pushId s.id (ownerIds p eid)
      else ownerIds p eid := by
  unfold ownerIds
  rw [List.filter_append]
  by_cases h : ∃ e ∈ s.exercises, e.id = eid
  · have hf : List.filter (owns eid) [s] = [s] := by
      simp [List.filter_cons, (owns_iff eid s).mpr h]
    rw [hf, if_pos h, List.map_append, List.map_singleton, firstDedup_append_singleton]
  · have ho : owns eid s = false := by
      rw [← Bool.not_eq_true, owns_iff]
      exact h
    have hf : List.filter (owns eid) [s] = [] := by
      simp [List.filter_cons, ho]
    rw [hf, List.append_nil, if_neg h]

theorem mem_rosterIds_foldl_processSplit :
    ∀ (l : List Split) (acc : List Exercise) (x : String),
      x ∈ rosterIds (l.foldl processSplit acc) ↔
        x ∈ rosterIds acc ∨ ∃ s ∈ l, ∃ e ∈ s.exercises, e.id = x := by
  intro l
  induction l with
  | nil => intro acc x; simp
  | cons s l ih =>
      intro acc x
      rw [List.foldl_cons, ih, processSplit, mem_rosterIds_foldl_insert]
      constructor
      · rintro ((hm | ⟨e, he, hid⟩) | ⟨s', hs', he⟩)
        · exact Or.inl hm
        · exact Or.inr ⟨s, List.mem_cons_self _ _, e, he, hid⟩
        · exact Or.inr ⟨s', List.mem_cons_of_mem _ hs', he⟩
      · rintro (hm | ⟨s', hs', he⟩)
        · exact Or.inl (Or.inl hm)
        · rcases List.mem_cons.mp hs' with rfl | hl
          · exact Or.inl (Or.inr he)
          · exact Or.inr ⟨s', hl, he⟩

theorem foldl_processSplit_nodup :
    ∀ (l : List Split) (acc : List Exercise), (rosterIds acc).Nodup →
      (rosterIds (l.foldl processSplit acc)).Nodup := by
  intro l
  induction l with
  | nil => intro acc h; exact h
  | cons s l ih =>
      intro acc h
      rw [List.foldl_cons]
      exact ih _ (foldl_insert_nodup _ _ _ h)

theorem foldl_processSplit_splitIds :
    ∀ (l : List Split) (acc : List Exercise) (p : List Split),
      (rosterIds acc).Nodup →
      (∀ x ∈ acc, x.splitIds = ownerIds p x.id) →
      (∀ eid, eid ∉ rosterIds acc → ownerIds p eid = []) →
      ∀ x ∈ l.foldl processSplit acc, x.splitIds = ownerIds (p ++ l) x.id := by
  intro l
  induction l with
  | nil =>
      intro acc p _ hg _ x hx
      rw [List.append_nil]
      exact hg x (by simpa using hx)
  | cons s l ih =>
      intro acc p hnd hg hg0 x hx
      rw [List.foldl_cons] at hx
      have hnd' : (rosterIds (processSplit acc s)).Nodup := foldl_insert_nodup _ _ _ hnd
      have hg' : ∀ y ∈ processSplit acc s, y.splitIds = ownerIds (p ++ [s]) y.id := by
        intro y hy
        have hkey := foldl_insert_splitIds s.id s.exercises acc
          (fun eid => ownerIds p eid) hnd hg hg0 y hy
        rw [hkey, ownerIds_append_singleton]
      have hg0' : ∀ eid, eid ∉ rosterIds (processSplit acc s) →
          ownerIds (p ++ [s]) eid = [] := by
        intro eid hne
        rw [ownerIds_append_singleton]
        by_cases hc : ∃ e ∈ s.exercises, e.id = eid
        · exfalso
          apply hne
          rw [processSplit, mem_rosterIds_foldl_insert]
          exact Or.inr hc
        · rw [if_neg hc]
          apply hg0
          intro hmem
          apply hne
          rw [processSplit, mem_rosterIds_foldl_insert]
          exact Or.inl hmem
      have hfin := ih (processSplit acc s) (p ++ [s]) hnd' hg' hg0' x hx
      rwa [List.append_assoc, List.singleton_append] at hfin

/-! ## Roster-level facts -/

theorem dedupRoster_splitIds (sd : List Split) :
    ∀ x ∈ dedupRoster sd, x.splitIds = ownerIds sd x.id := by
  have h := foldl_processSplit_splitIds sd [] []
    (by simp [rosterIds]) (by simp) (fun eid _ => ownerIds_nil eid)
  simpa using h

theorem dedupRoster_nodup (sd : List Split) : (rosterIds (dedupRoster sd)).Nodup :=
  foldl_processSplit_nodup sd [] (by simp [rosterIds])

theorem mem_dedupRoster (sd : List Split) (eid : String) :
    eid ∈ rosterIds (dedupRoster sd) ↔ ∃ s ∈ sd, ∃ e ∈ s.exercises, e.id = eid := by
  rw [dedupRoster, mem_rosterIds_foldl_processSplit]
  simp [rosterIds]

theorem dedupRoster_splitIds_nodup (sd : List Split) :
    ∀ x ∈ dedupRoster sd, x.splitIds.Nodup := by
  intro x hx
  rw [dedupRoster_splitIds sd x hx]
  exact nodup_firstDedup _

/-! ## Lemmas about the body-part grouping -/

theorem pushId_of_mem {a : String} {l : List String} (h : a ∈ l) : pushId a l = l := by
  rw [pushId, if_pos h]

theorem pushId_of_not_mem {a : String} {l : List String} (h : a ∉ l) :
    pushId a l = l ++ [a] := by
  rw [pushId, if_neg h]

theorem pushId_cons_ne {a k : String} (l : List String) (h : a ≠ k) :
    pushId a (k :: l) = k :: pushId a l := by
  unfold pushId
  by_cases hm : a ∈ l
  · rw [if_pos (List.mem_cons_of_mem _ hm), if_pos hm]
  · rw [if_neg ?_, if_neg hm, List.cons_append]
    intro hc
    rcases List.mem_cons.mp hc with h1 | h2
    · exact h h1
    · exact hm h2

/-- `pushToBucket` acting on a bucket list indexed by a duplicate-free key
list: the matching bucket (or a fresh one) gains `e` at its end. -/
theorem pushToBucket_map (e : Exercise) (ks : List String) (h : String → List Exercise)
    (hnd : ks.Nodup) (h0 : e.bodyPart ∉ ks → h e.bodyPart = []) :
    pushToBucket e (ks.map (fun k => (k, h k))) =
      (pushId e.bodyPart ks).map
        (fun k => (k, if k = e.bodyPart then h k ++ [e] else h k)) := by
  induction ks with
  | nil =>
      rw [List.map_nil, pushToBucket, pushId_of_not_mem (List.not_mem_nil _),
        List.nil_append, List.map_singleton, if_pos rfl, h0 (List.not_mem_nil _)]
      rw [List.nil_append]
  | cons k ks ih =>
      have hknd : ks.Nodup := (List.nodup_cons.mp hnd).2
      have hkn : k ∉ ks := (List.nodup_cons.mp hnd).1
      rw [List.map_cons, pushToBucket]
      by_cases hk : k = e.bodyPart
      · subst hk
        rw [if_pos rfl, pushId_of_mem (List.mem_cons_self _ _), List.map_cons,
          if_pos rfl]
        congr 1
        apply List.map_congr_left
        intro k' hk'
        rw [if_neg ?_]
        intro hc
        exact hkn (hc ▸ hk')
      · rw [if_neg hk, pushId_cons_ne ks (fun hc => hk hc.symm), List.map_cons,
          if_neg hk]
        congr 1
        apply ih hknd
        intro hn
        apply h0
        intro hc
        rcases List.mem_cons.mp hc with h1 | h2
        · exact hk h1.symm
        · exact hn h2

theorem specGroup_append_singleton (l : List Exercise) (e : Exercise) :
    specGroup (l ++ [e]) = pushToBucket e (specGroup l) := by
  unfold specGroup
  rw [List.map_append, List.map_singleton, firstDedup_append_singleton]
  rw [pushToBucket_map e (firstDedup (l.map Exercise.bodyPart))
    (fun k => l.filter (fun x => x.bodyPart == k)) (nodup_firstDedup _) ?h0]
  case h0 =>
    intro hn
    rw [mem_firstDedup] at hn
    simp only [List.filter_eq_nil_iff]
    intro x hx
    intro hc
    exact hn (by
      have : x.bodyPart = e.bodyPart := by simpa using hc
      exact this ▸ List.mem_map_of_mem Exercise.bodyPart hx)
  apply List.map_congr_left
  intro k hk
  rw [List.filter_append]
  by_cases hke : k = e.bodyPart
  · subst hke
    simp
  · have : List.filter (fun x => x.bodyPart == k) [e] = [] := by
      simp [List.filter_cons]
      intro hc
      exact hke hc.symm
    rw [this, List.append_nil, if_neg hke]

theorem groupByBodyPart_eq_specGroup (l : List Exercise) :
    groupByBodyPart l = specGroup l := by
  induction l using List.reverseRecOn with
  | nil => simp [groupByBodyPart, specGroup, firstDedup_nil]
  | append_singleton xs e ih =>
      rw [groupByBodyPart, List.foldl_append, List.foldl_cons, List.foldl_nil,
        ← groupByBodyPart, ih, specGroup_append_singleton]

theorem flatMap_congr_mem {ks : List String} {f g : String → List Exercise}
    (h : ∀ k ∈ ks, f k = g k) : ks.flatMap f = ks.flatMap g := by
  induction ks with
  | nil => rfl
  | cons k ks ih =>
      rw [List.flatMap_cons, List.flatMap_cons, h k (List.mem_cons_self _ _),
        ih (fun k' hk' => h k' (List.mem_cons_of_mem _ hk'))]

/-- Concatenating the per-key filters of a covering, duplicate-free key
list permutes the original list. -/
theorem flatMap_filter_perm :
    ∀ (ks : List String) (l : List Exercise), ks.Nodup →
      (∀ x ∈ l, x.bodyPart ∈ ks) →
      (ks.flatMap (fun k => l.filter (fun x => x.bodyPart == k))).Perm l := by
  intro ks
  induction ks with
  | nil =>
      intro l _ hcov
      have : l = [] := List.eq_nil_iff_forall_not_mem.mpr
        (fun x hx => by simpa using hcov x hx)
      subst this
      simp
  | cons k ks ih =>
      intro l hnd hcov
      have hkn : k ∉ ks := (List.nodup_cons.mp hnd).1
      have hknd : ks.Nodup := (List.nodup_cons.mp hnd).2
      rw [List.flatMap_cons]
      have hrepl : ks.flatMap (fun k' => l.filter (fun x => x.bodyPart == k')) =
          ks.flatMap (fun k' =>
            (l.filter (fun x => !(x.bodyPart == k))).filter
              (fun x => x.bodyPart == k')) := by
        apply flatMap_congr_mem
        intro k' hk'
        have hkk : k' ≠ k := fun hc => hkn (hc ▸ hk')
        rw [List.filter_filter]
        apply List.filter_congr
        intro x _
        by_cases hx : x.bodyPart = k'
        · simp [hx, hkk]
        · simp [hx]
      rw [hrepl]
      have hperm := ih (l.filter (fun x => !(x.bodyPart == k))) hknd ?cov
      case cov =>
        intro x hx
        rcases List.mem_filter.mp hx with ⟨hxl, hxk⟩
        rcases List.mem_cons.mp (hcov x hxl) with h1 | h2
        · exact absurd h1 (by simpa using hxk)
        · exact h2
      exact (hperm.append_left (l.filter (fun x => x.bodyPart == k))).trans
        (List.filter_append_perm _ l)

/-- Flattening the spec-side grouping permutes the roster. -/
theorem flattenGroups_specGroup_perm (l : List Exercise) :
    (flattenGroups (specGroup l)).Perm l := by
  unfold flattenGroups specGroup
  rw [List.flatMap_map]
  exact flatMap_filter_perm _ l (nodup_firstDedup _)
    (fun x hx => (mem_firstDedup _ _).mpr (List.mem_map_of_mem _ hx))

/-! ## Concrete fixtures -/

def chest1 : ExerciseRef := { id := "chest-1", name := "Bench Press", bodyPart := "Chest" }

def legs1 : ExerciseRef := { id := "legs-1", name := "Squat", bodyPart := "Legs" }

def splitA : Split :=
  { id := "A", name := "Split A", days := ["Mon"], color := none, exercises := [chest1] }

def splitB : Split :=
  { id := "B", name := "Split B", days := ["Wed"], color := none,
    exercises := [chest1, legs1] }

/-- A split whose exercise list repeats the same exercise id. -/
def dupSplit : Split :=
  { id := "D", name := "Dup", days := [], color := none, exercises := [chest1, chest1] }

/-- A split whose body parts are not contiguous (Chest, Legs, Chest). -/
def mixedSplit : Split :=
  { id := "s1", name := "Mixed", days := [], color := none,
    exercises := [{ id := "a", name := "A", bodyPart := "Chest" },
                  { id := "b", name := "B", bodyPart := "Legs" },
                  { id := "c", name := "C", bodyPart := "Chest" }] }

/-! ## Claim theorems: derivation -/

/-- C1.  `processSplitsData` yields (a) a deduplicated roster: ids are
pairwise distinct, an id is present exactly when some split's exercise
list mentions it, and each entry's `splitIds` is the union of the ids of
the owning splits in split-iteration order (`ownerIds`); and (b) the
grouping by body part with body-part groups in first-seen order and
exercises within a group in first-seen order (`specGroup`).  Empty input
yields an empty roster and empty groups, and the A/B example of the spec
evaluates to the stated roster and grouping. -/
theorem claim_C1 :
    processSplitsData ([] : List Split) = ([], []) ∧
    (∀ sd : List Split,
      (rosterIds (processSplitsData sd).1).Nodup ∧
      (∀ eid, eid ∈ rosterIds (processSplitsData sd).1 ↔
        ∃ s ∈ sd, ∃ e ∈ s.exercises, e.id = eid) ∧
      (∀ x ∈ (processSplitsData sd).1, x.splitIds = ownerIds sd x.id) ∧
      (processSplitsData sd).2 = specGroup (processSplitsData sd).1) ∧
    processSplitsData [splitA, splitB] =
      ([⟨"chest-1", "Bench Press", "Chest", ["A", "B"]⟩,
        ⟨"legs-1", "Squat", "Legs", ["B"]⟩],
       [("Chest", [⟨"chest-1", "Bench Press", "Chest", ["A", "B"]⟩]),
        ("Legs", [⟨"legs-1", "Squat", "Legs", ["B"]⟩])]) := by
  refine ⟨rfl, fun sd => ⟨?_, ?_, ?_, ?_⟩, by decide⟩
  · exact dedupRoster_nodup sd
  · exact fun eid => mem_dedupRoster sd eid
  · exact dedupRoster_splitIds sd
  · exact groupByBodyPart_eq_specGroup _

theorem claim_C1_witness :
    (rosterIds (processSplitsData [splitA, splitB]).1).Nodup :=
  (claim_C1.2.1 [splitA, splitB]).1

/-- C3 counterexample.  For a split whose exercises are Chest, Legs,
Chest, flattening the grouped output reorders the roster (it yields
`[a, c, b]` against the roster `[a, b, c]`), so group-then-flatten is not
list-equal to the deduplicated roster. -/
theorem claim_C3_counterexample :
    flattenGroups (processSplitsData [mixedSplit]).2 ≠ (processSplitsData [mixedSplit]).1 := by
  decide

/-- C3 (amended).  Flattening the grouped output yields a permutation of
the deduplicated roster: the same entries, each exactly once; list
equality can fail when a body part's exercises are not contiguous in the
roster. -/
theorem claim_C3 (sd : List Split) :
    (flattenGroups (processSplitsData sd).2).Perm (processSplitsData sd).1 := by
  have h2 : (processSplitsData sd).2 = specGroup (dedupRoster sd) :=
    groupByBodyPart_eq_specGroup _
  rw [h2]
  exact flattenGroups_specGroup_perm _

/-- C9.  Even with duplicate exercise ids inside a single split, the
roster has exactly one entry per distinct id (ids are pairwise distinct,
and an id is present iff some split mentions it) and every entry's
`splitIds` is duplicate-free; in particular a split listing `chest-1`
twice produces a single roster entry with `splitIds = ["D"]`. -/
theorem claim_C9 :
    (∀ sd : List Split,
      (rosterIds (dedupRoster sd)).Nodup ∧
      (∀ eid, eid ∈ rosterIds (dedupRoster sd) ↔
        ∃ s ∈ sd, ∃ e ∈ s.exercises, e.id = eid) ∧
      (∀ x ∈ dedupRoster sd, x.splitIds.Nodup)) ∧
    dedupRoster [dupSplit] = [⟨"chest-1", "Bench Press", "Chest", ["D"]⟩] := by
  refine ⟨fun sd => ⟨dedupRoster_nodup sd, fun eid => mem_dedupRoster sd eid,
    dedupRoster_splitIds_nodup sd⟩, by decide⟩

theorem claim_C9_witness :
    (rosterIds (dedupRoster [dupSplit])).Nodup :=
  (claim_C9.1 [dupSplit]).1

/-! ## Claim theorems: weekday assignment -/

theorem removeDayFromAll_not_mem (day : String) (sd : List Split) :
    ∀ s ∈ removeDayFromAll day sd, day ∉ s.days := by
  intro s hs
  rcases List.mem_map.mp hs with ⟨t, _, rfl⟩
  simp [List.mem_filter]

/-- C2.  In program edit mode with day `D` selected, selecting a split
present in the schedule makes exactly that split's day-set contain `D`:
some split with the target id holds `D`, every split with a different id
does not, and the operation is literally remove-`D`-everywhere followed
by add-`D`-to-target. -/
theorem claim_C2 (sd : List Split) (D : String) (target : Split)
    (hS : target.id ∈ sd.map Split.id) :
    (∃ s ∈ handleSplitSelect EditMode.program (some D) target sd,
        s.id = target.id ∧ D ∈ s.days) ∧
    (∀ s ∈ handleSplitSelect EditMode.program (some D) target sd,
        s.id ≠ target.id → D ∉ s.days) ∧
    handleSplitSelect EditMode.program (some D) target sd =
      addDayToTarget D target.id (removeDayFromAll D sd) := by
  refine ⟨?_, ?_, rfl⟩
  · obtain ⟨t, ht, htid⟩ := List.mem_map.mp hS
    have ht1 : ({ t with days := t.days.filter (fun d => d != D) } : Split) ∈
        removeDayFromAll D sd := List.mem_map_of_mem _ ht
    refine ⟨{ t with days := t.days.filter (fun d => d != D) ++ [D] }, ?_, htid,
      List.mem_append_right _ (List.mem_singleton_self D)⟩
    apply List.mem_map.mpr
    refine ⟨{ t with days := t.days.filter (fun d => d != D) }, ht1, ?_⟩
    simp [htid]
  · intro s hs hneq
    obtain ⟨s1, hs1, rfl⟩ := List.mem_map.mp hs
    by_cases h : s1.id = target.id
    · exact absurd (by simpa [if_pos h] using h) hneq
    · simp only [if_neg h]
      exact removeDayFromAll_not_mem D sd s1 hs1

theorem claim_C2_witness :
    "B" ∈ [splitA, splitB].map Split.id ∧
    (∃ s ∈ handleSplitSelect EditMode.program (some "Mon") splitB [splitA, splitB],
        s.id = splitB.id ∧ "Mon" ∈ s.days) :=
  ⟨by decide, (claim_C2 [splitA, splitB] "Mon" splitB (by decide)).1⟩

/-- C4.  Assigning weekday `D` to a split present in the schedule twice in
a row yields the same schedule (same splits, same day-list order) as
assigning it once. -/
theorem claim_C4 (sd : List Split) (D : String) (target : Split)
    (hS : target.id ∈ sd.map Split.id) :
    assignWeekday D target (assignWeekday D target sd) =
      assignWeekday D target sd := by
  unfold assignWeekday addDayToTarget removeDayFromAll
  rw [List.map_map, List.map_map, List.map_map, List.map_map]
  apply List.map_congr_left
  intro s _
  simp only [Function.comp]
  by_cases h : s.id = target.id
  · simp [h, List.filter_append, List.filter_filter]
  · simp [h, List.filter_filter]

theorem claim_C4_witness :
    "B" ∈ [splitA, splitB].map Split.id ∧
    assignWeekday "Mon" splitB (assignWeekday "Mon" splitB [splitA, splitB]) =
      assignWeekday "Mon" splitB [splitA, splitB] :=
  ⟨by decide, claim_C4 [splitA, splitB] "Mon" splitB (by decide)⟩

/-! ## Claim theorems: create-split -/

/-- An already-stored split whose id happens to equal the clock string the
next `handleAddSplit` call will generate. -/
def clashSplit : Split :=
  { id := "1700000000000", name := "Old", days := [], color := none, exercises := [] }

/-- C5 counterexample.  `handleAddSplit` derives the new id from the
clock (`Date.now().toString()`) and never checks it against existing ids:
when the clock string equals a stored id, the appended split's id
coincides with an existing split's id, refuting "distinct from all
existing split ids". -/
theorem claim_C5_counterexample :
    handleAddSplit EditMode.splitsMode "1700000000000" [clashSplit] =
      [clashSplit, blankSplit "1700000000000"] ∧
    (blankSplit "1700000000000").id ∈ [clashSplit].map Split.id := by
  decide

/-- C5 (amended).  In splits edit mode, `handleAddSplit` is a no-op at 7
splits and otherwise appends exactly one blank split (empty name, empty
day-set, empty exercise list, no color) whose id is the current clock
string; that id is distinct from all existing ids only when the clock
string differs from every stored id (the code performs no uniqueness
check).  Starting from at most 7 splits, no editor operation brings the
count above 7. -/
theorem claim_C5 (em : EditMode) (newId : String) (sd : List Split) :
    (sd.length ≥ 7 → handleAddSplit EditMode.splitsMode newId sd = sd) ∧
    (sd.length < 7 →
      handleAddSplit EditMode.splitsMode newId sd = sd ++ [blankSplit newId]) ∧
    ((blankSplit newId).name = "" ∧ (blankSplit newId).days = [] ∧
      (blankSplit newId).exercises = [] ∧ (blankSplit newId).color = none) ∧
    (newId ∉ sd.map Split.id → ∀ s ∈ sd, s.id ≠ (blankSplit newId).id) ∧
    (sd.length ≤ 7 →
      (handleAddSplit em newId sd).length ≤ 7 ∧
      ∀ (splitId newName color : String) (day : Option String) (target : Split),
        (handleDeleteSplit em splitId sd).length ≤ 7 ∧
        (handleSplitNameEdit em splitId newName sd).length ≤ 7 ∧
        (handleColorSelect em splitId color sd).length ≤ 7 ∧
        (handleSplitSelect em day target sd).length ≤ 7) := by
  refine ⟨?_, ?_, ⟨rfl, rfl, rfl, rfl⟩, ?_, ?_⟩
  · intro h
    simp [handleAddSplit, h]
  · intro h
    simp [handleAddSplit, Nat.not_le_of_lt h]
  · intro hfresh s hs hc
    have hc' : s.id = newId := hc
    exact hfresh (hc' ▸ List.mem_map_of_mem Split.id hs)
  · intro hlen
    constructor
    · unfold handleAddSplit
      by_cases hm : em ≠ EditMode.splitsMode
      · rw [if_pos hm]; exact hlen
      · rw [if_neg hm]
        by_cases h7 : sd.length ≥ 7
        · rw [if_pos h7]; exact hlen
        · rw [if_neg h7]
          rw [List.length_append, List.length_singleton]
          omega
    · intro splitId newName color day target
      refine ⟨?_, ?_, ?_, ?_⟩
      · unfold handleDeleteSplit
        by_cases hm : em ≠ EditMode.splitsMode
        · rw [if_pos hm]; exact hlen
        · rw [if_neg hm]
          exact le_trans (List.length_filter_le _ _) hlen
      · unfold handleSplitNameEdit
        by_cases hm : em ≠ EditMode.splitsMode
        · rw [if_pos hm]; exact hlen
        · rw [if_neg hm, List.length_map]; exact hlen
      · unfold handleColorSelect
        by_cases hm : em ≠ EditMode.splitsMode
        · rw [if_pos hm]; exact hlen
        · rw [if_neg hm, List.length_map]; exact hlen
      · unfold handleSplitSelect
        match day, em with
        | some d, EditMode.program =>
            unfold assignWeekday addDayToTarget removeDayFromAll
            rw [List.length_map, List.length_map]
            exact hlen
        | some d, EditMode.noMode => exact hlen
        | some d, EditMode.splitsMode => exact hlen
        | none, _ => exact hlen

theorem claim_C5_witness :
    [splitA].length < 7 ∧
    handleAddSplit EditMode.splitsMode "99" [splitA] = [splitA] ++ [blankSplit "99"] :=
  ⟨by decide, (claim_C5 EditMode.splitsMode "99" [splitA]).2.1 (by decide)⟩

/-! ## Claim theorems: add-exercises -/

/-- C6.  `handleAddExercise` appends all the given catalog references, in
order, to the end of the split's exercise list, with no duplicate
filtering: occurrence counts add, so an id present both before and among
the additions occurs at least twice afterwards. -/
theorem claim_C6 (split : Split) (exs : List Exercise) (news : List ExerciseRef)
    (hne : news ≠ []) :
    handleAddExercise split exs news =
      exs ++ news.map (convertToWorkoutExercise split.id) ∧
    (∀ eid, (handleAddExercise split exs news).countP (fun e => e.id == eid) =
        exs.countP (fun e => e.id == eid) + news.countP (fun e => e.id == eid)) ∧
    (∀ eid, (∃ e ∈ exs, e.id = eid) → (∃ e ∈ news, e.id = eid) →
        2 ≤ (handleAddExercise split exs news).countP (fun e => e.id == eid)) := by
  have hcount : ∀ eid, (handleAddExercise split exs news).countP (fun e => e.id == eid) =
      exs.countP (fun e => e.id == eid) + news.countP (fun e => e.id == eid) := by
    intro eid
    unfold handleAddExercise
    rw [List.countP_append, List.countP_map]
    congr 1
  refine ⟨rfl, hcount, ?_⟩
  intro eid h1 h2
  have ha : 0 < exs.countP (fun e => e.id == eid) := by
    rw [List.countP_pos_iff]
    obtain ⟨e, he, hid⟩ := h1
    exact ⟨e, he, by simp [hid]⟩
  have hb : 0 < news.countP (fun e => e.id == eid) := by
    rw [List.countP_pos_iff]
    obtain ⟨e, he, hid⟩ := h2
    exact ⟨e, he, by simp [hid]⟩
  rw [hcount eid]
  omega

theorem claim_C6_witness :
    ([chest1] : List ExerciseRef) ≠ [] ∧
    2 ≤ (handleAddExercise splitA [⟨"chest-1", "Bench Press", "Chest", ["A"]⟩]
          [chest1]).countP (fun e => e.id == "chest-1") :=
  ⟨by decide, (claim_C6 splitA [⟨"chest-1", "Bench Press", "Chest", ["A"]⟩]
      [chest1] (by decide)).2.2 "chest-1"
      ⟨_, List.mem_singleton_self _, rfl⟩ ⟨chest1, List.mem_singleton_self _, rfl⟩⟩

/-! ## Claim theorems: debounced save -/

/-- Schedule snapshots for the reference debounce scenario. -/
def demo0 : List Split := []

def demo1 : List Split := [splitA]

def demo2 : List Split := [splitA, splitB]

/-- While the pending timer has not yet fired, each further mutation in
the same quiescent window replaces it; the fold ends holding a timer for
the last mutation and records no save. -/
theorem foldl_stepMut_aux (window : Nat) :
    ∀ (muts : List (Nat × List Split)) (p q : Nat × List Split)
      (saves : List (Nat × List Split)),
      List.Chain' (fun a b => a.1 ≤ b.1 ∧ b.1 < a.1 + window) (p :: muts) →
      (p :: muts).getLast? = some q →
      muts.foldl (stepMut window) (some (p.1 + window, p.2), saves) =
        (some (q.1 + window, q.2), saves) := by
  intro muts
  induction muts with
  | nil =>
      intro p q saves _ hlast
      simp only [List.getLast?_singleton, Option.some_inj] at hlast
      subst hlast
      rfl
  | cons m muts ih =>
      intro p q saves hchain hlast
      have hpm : p.1 ≤ m.1 ∧ m.1 < p.1 + window := (List.chain'_cons.mp hchain).1
      have hchain' : List.Chain' (fun a b => a.1 ≤ b.1 ∧ b.1 < a.1 + window) (m :: muts) :=
        (List.chain'_cons.mp hchain).2
      rw [List.getLast?_cons_cons] at hlast
      rw [List.foldl_cons]
      have hstep : stepMut window (some (p.1 + window, p.2), saves) m =
          (some (m.1 + window, m.2), saves) := by
        unfold stepMut
        simp only
        rw [if_neg (Nat.not_le_of_lt hpm.2)]
      rw [hstep]
      exact ih m q saves hchain' hlast

/-- C7.  With a 500 ms window, mutations at t = 0, 100, 200 produce
exactly one physical save, at t = 700, writing the state of the t = 200
mutation; in general, any run of mutations whose consecutive gaps stay
under the window coalesces into a single save of the last mutation's
state, 500 ms after it. -/
theorem claim_C7 :
    runDebounce 500 [(0, demo0), (100, demo1), (200, demo2)] = [(700, demo2)] ∧
    (∀ (muts : List (Nat × List Split)) (tl : Nat) (dl : List Split),
      List.Chain' (fun a b => a.1 ≤ b.1 ∧ b.1 < a.1 + 500) muts →
      muts.getLast? = some (tl, dl) →
      runDebounce 500 muts = [(tl + 500, dl)]) := by
  constructor
  · rfl
  · intro muts tl dl hchain hlast
    match muts, hlast with
    | m :: rest, hlast =>
        unfold runDebounce
        rw [List.foldl_cons]
        have hfirst : stepMut 500 (none, []) m = (some (m.1 + 500, m.2), []) := rfl
        rw [hfirst, foldl_stepMut_aux 500 rest m (tl, dl) [] hchain hlast]
        rfl

theorem claim_C7_witness :
    List.Chain' (fun a b => a.1 ≤ b.1 ∧ b.1 < a.1 + 500)
      [(0, demo0), (100, demo1), (200, demo2)] ∧
    runDebounce 500 [(0, demo0), (100, demo1), (200, demo2)] = [(200 + 500, demo2)] :=
  ⟨List.Chain'.cons ⟨by norm_num, by norm_num⟩
    (List.Chain'.cons ⟨by norm_num, by norm_num⟩ (List.chain'_singleton _)),
   claim_C7.2 [(0, demo0), (100, demo1), (200, demo2)] 200 demo2
    (List.Chain'.cons ⟨by norm_num, by norm_num⟩
      (List.Chain'.cons ⟨by norm_num, by norm_num⟩ (List.chain'_singleton _))) rfl⟩

/-! ## Claim theorems: session-log lookup -/

/-- C8.  The session-log lookup computes the weekday name of the selected
date and returns a split drawn from the schedule whose day-set contains
that weekday; when no split's day-set contains it — including an absent
or unparseable date — it returns `none` rather than failing; and the
future-date test holds exactly when a date is selected and compares
(lexicographically) above today's date string. -/
theorem claim_C8 (splits : List Split) (ds : Option String) :
    (∀ s, getScheduledSplit splits (getDayOfWeek ds) = some s →
        s ∈ splits ∧ ∃ w, getDayOfWeek ds = some w ∧ w ∈ s.days) ∧
    ((∀ w, getDayOfWeek ds = some w → ∀ s ∈ splits, w ∉ s.days) →
        getScheduledSplit splits (getDayOfWeek ds) = none) ∧
    (∀ today : String, isFutureDate ds today = true ↔ ∃ d, ds = some d ∧ today < d) := by
  refine ⟨?_, ?_, ?_⟩
  · intro s hs
    match hw : getDayOfWeek ds with
    | none => rw [hw] at hs; exact absurd hs (by simp [getScheduledSplit])
    | some w =>
        rw [hw] at hs
        unfold getScheduledSplit at hs
        refine ⟨List.mem_of_find?_eq_some hs, w, rfl, ?_⟩
        have hp := List.find?_some hs
        exact List.elem_iff.mp hp
  · intro hnone
    match hw : getDayOfWeek ds with
    | none => simp [getScheduledSplit]
    | some w =>
        unfold getScheduledSplit
        rw [List.find?_eq_none]
        intro s hs hc
        exact hnone w hw s hs (List.elem_iff.mp hc)
  · intro today
    match ds with
    | none => simp [isFutureDate]
    | some d => simp [isFutureDate]

theorem claim_C8_witness :
    getScheduledSplit [splitA, splitB] (getDayOfWeek (some "2026-10-12")) = some splitA ∧
    splitA ∈ [splitA, splitB] :=
  ⟨by decide,
   ((claim_C8 [splitA, splitB] (some "2026-10-12")).1 splitA (by decide)).1⟩

/-- C10.  When several splits' day-sets contain the looked-up weekday, the
lookup returns the first such split in the schedule's stored order: any
prefix of splits not containing the weekday is skipped and the first
match is returned. -/
theorem claim_C10 (l1 l2 : List Split) (s : Split) (w : String)
    (h1 : ∀ s' ∈ l1, w ∉ s'.days) (h2 : w ∈ s.days) :
    getScheduledSplit (l1 ++ s :: l2) (some w) = some s := by
  show (l1 ++ s :: l2).find? (fun s' => s'.days.contains w) = some s
  rw [List.find?_append]
  have hnone : l1.find? (fun s' => s'.days.contains w) = none := by
    rw [List.find?_eq_none]
    intro s' hs' hc
    exact h1 s' hs' (List.elem_iff.mp hc)
  rw [hnone, Option.none_or]
  exact List.find?_cons_of_pos _ (List.elem_iff.mpr h2)

theorem claim_C10_witness :
    getScheduledSplit [splitA, splitB,
      { id := "C", name := "Also Mon", days := ["Mon"], color := none, exercises := [] }]
      (some "Mon") = some splitA :=
  claim_C10 [] [splitB,
      { id := "C", name := "Also Mon", days := ["Mon"], color := none, exercises := [] }]
    splitA "Mon" (by simp) (by decide)

end PRApp
